import Mathlib

/-!
Verification of the array- and link-based queue/deque containers of the
py-DSA repository (`pythondsa/src/queues.py`) against its specification.

Python objects are embedded as Lean structures; the mutable backing list
becomes a `List (Option α)` where `none` models Python's `None`
(both the "empty slot" marker and a possible user value), and each method
becomes a function on the structure.  Methods that can raise return an
`Except Err _` result *paired with* the post-call state, so that the state
visible after an exception is modelled explicitly: every `raise` in the
source happens before any field mutation, hence the error branches return
the input state unchanged.  Python's `%` on possibly-negative left operands
is rendered with the usual `(x + cap - 1) % cap` idiom on `Nat` (equal to
Python's result for every nonnegative `x`), or with `Int.emod`, whose
convention agrees with Python for positive moduli.
-/

set_option autoImplicit false
set_option linter.unusedSectionVars false
set_option linter.unusedVariables false

namespace PyDSA

variable {α : Type} [DecidableEq α]

/-- The error vocabulary of the containers: `Empty`, `ValueError`
(`ValueNotFoundError`), `IndexError` (`IndexOutOfBoundsError`). -/
inductive Err where
  | empty
  | valueNotFound
  | indexOutOfBounds
  deriving DecidableEq, Repr

/-- State of `ArrayDeque`: fields `_data`, `_size`, `_front`, `_maxlen`. -/
structure ArrayDeque (α : Type) where
  data : List (Option α)
  size : Nat
  front : Nat
  maxlen : Option Nat
  deriving Repr

namespace ArrayDeque

/-- `ArrayDeque.DEFAULT_CAPACITY = 10`. -/
def DEFAULT_CAPACITY : Nat := 10

/-- `ArrayDeque.__init__(maxlen=None)`.  Python's `not self._maxlen` is true
for `None` and for `0`. -/
def init (maxlen : Option Nat) : ArrayDeque α :=
  match maxlen with
  | none => ⟨List.replicate DEFAULT_CAPACITY none, 0, 0, none⟩
  | some m =>
    if m = 0 ∨ DEFAULT_CAPACITY ≤ m then
      ⟨List.replicate DEFAULT_CAPACITY none, 0, 0, some m⟩
    else
      ⟨List.replicate m none, 0, 0, some m⟩

/-- `ArrayDeque.__len__`. -/
def len (s : ArrayDeque α) : Nat := s.size

/-- `ArrayDeque.is_empty`. -/
def isEmpty (s : ArrayDeque α) : Bool := s.size = 0

/-- `ArrayDeque.is_full`: `len(self._data) == self._maxlen`
(Python `n == None` is `False`). -/
def isFull (s : ArrayDeque α) : Bool :=
  match s.maxlen with
  | none => false
  | some m => s.data.length = m

/-- `ArrayDeque._resize(cap)`: fresh buffer of `cap` slots, the `size` live
elements re-laid from physical index 0 in logical order, `front` reset to 0. -/
def resize (s : ArrayDeque α) (cap : Nat) : ArrayDeque α :=
  { s with
    data := (List.range cap).map fun k =>
      if k < s.size then s.data.getD ((s.front + k) % s.data.length) none else none
    front := 0 }

/-- The growth guard both insertion methods start with:
`if self._size == len(self._data): self._resize(2 * len(self._data))`. -/
def grow (s : ArrayDeque α) : ArrayDeque α :=
  if s.size = s.data.length then s.resize (2 * s.data.length) else s

/-- `ArrayDeque.add_last(e)`. -/
def addLast (s : ArrayDeque α) (e : Option α) : ArrayDeque α :=
  let t := s.grow
  { t with
    data := t.data.set ((t.front + t.size) % t.data.length) e
    size := t.size + 1 }

/-- `ArrayDeque.add_first(e)`; Python `(self._front - 1) % len(self._data)`
is `(front + cap - 1) % cap` on `Nat`. -/
def addFirst (s : ArrayDeque α) (e : Option α) : ArrayDeque α :=
  let t := s.grow
  let f := (t.front + t.data.length - 1) % t.data.length
  { t with data := t.data.set f e, front := f, size := t.size + 1 }

/-- `ArrayDeque.delete_first()`. -/
def deleteFirst (s : ArrayDeque α) : Except Err (Option α) × ArrayDeque α :=
  if s.size = 0 then (.error .empty, s)
  else
    (.ok (s.data.getD s.front none),
      { s with
        data := s.data.set s.front none
        front := (s.front + 1) % s.data.length
        size := s.size - 1 })

/-- `ArrayDeque.delete_last()`. -/
def deleteLast (s : ArrayDeque α) : Except Err (Option α) × ArrayDeque α :=
  if s.size = 0 then (.error .empty, s)
  else
    let last := (s.front + s.size - 1) % s.data.length
    (.ok (s.data.getD last none),
      { s with data := s.data.set last none, size := s.size - 1 })

/-- `ArrayDeque.first()`. -/
def first (s : ArrayDeque α) : Except Err (Option α) × ArrayDeque α :=
  if s.size = 0 then (.error .empty, s)
  else (.ok (s.data.getD s.front none), s)

/-- `ArrayDeque.last()`. -/
def last (s : ArrayDeque α) : Except Err (Option α) × ArrayDeque α :=
  if s.size = 0 then (.error .empty, s)
  else (.ok (s.data.getD ((s.front + s.size - 1) % s.data.length) none), s)

/-- `ArrayDeque.__getitem__(i)` for an `int` index (the `slice` and
wrong-type branches raise before touching any state and are outside this
typed embedding). -/
def getItem (s : ArrayDeque α) (i : Int) : Except Err (Option α) :=
  if i < -(s.size : Int) ∨ (s.size : Int) - 1 < i then .error .indexOutOfBounds
  else
    let idx : Int :=
      if i < 0 then ((s.front : Int) + (s.size : Int) + i) % (s.data.length : Int)
      else ((s.front : Int) + i) % (s.data.length : Int)
    .ok (s.data.getD idx.toNat none)

/-- `ArrayDeque.__setitem__(i, v)` for an `int` index. -/
def setItem (s : ArrayDeque α) (i : Int) (v : Option α) : Except Err Unit × ArrayDeque α :=
  if i < -(s.size : Int) ∨ (s.size : Int) - 1 < i then (.error .indexOutOfBounds, s)
  else
    let idx : Int :=
      if i < 0 then ((s.front : Int) + (s.size : Int) + i) % (s.data.length : Int)
      else ((s.front : Int) + i) % (s.data.length : Int)
    (.ok (), { s with data := s.data.set idx.toNat v })

/-- `ArrayDeque.count(value)`. -/
def count (s : ArrayDeque α) (v : Option α) : Nat :=
  (List.range s.size).countP fun i =>
    decide (s.data.getD ((s.front + i) % s.data.length) none = v)

/-- The scan loop of `ArrayDeque.remove`: first logical index holding `value`. -/
def findFirst (s : ArrayDeque α) (v : Option α) : Option Nat :=
  (List.range s.size).find? fun i =>
    decide (s.data.getD ((s.front + i) % s.data.length) none = v)

/-- `ArrayDeque.remove(value)`, including its quirks: in the back-half
branch (`i > size // 2`) neither `_size` nor `_front` is ever updated and
the last live slot is cleared on every loop iteration; in the front-half
branch `_front += 1` (without modulo) and `_size -= 1` run inside the shift
loop, once per iteration.  Python's `range(i, size-1, 1)` is
`List.range' i (size-1-i)` and `range(i, 0, -1)` is `(List.range' 1 i).reverse`. -/
def removeShiftBack (s : ArrayDeque α) (i : Nat) : ArrayDeque α :=
  { s with
    data := (List.range' i (s.size - 1 - i)).foldl
      (fun d k =>
        let current := (s.front + k) % s.data.length
        let nxt := (current + 1) % s.data.length
        let d := d.set current (d.getD nxt none)
        d.set ((s.front + s.size - 1) % s.data.length) none)
      s.data }

def removeShiftFront (s : ArrayDeque α) (i : Nat) : ArrayDeque α :=
  let st := ((List.range' 1 i).reverse).foldl
    (fun (t : List (Option α) × Nat × Nat) k =>
      let current := (t.2.1 + k) % s.data.length
      let prev := (current + s.data.length - 1) % s.data.length
      let d := t.1.set current (t.1.getD prev none)
      let d := d.set t.2.1 none
      (d, t.2.1 + 1, t.2.2 - 1))
    (s.data, s.front, s.size)
  { s with data := st.1, front := st.2.1, size := st.2.2 }

def remove (s : ArrayDeque α) (v : Option α) : Except Err Unit × ArrayDeque α :=
  match s.findFirst v with
  | none => (.error .valueNotFound, s)
  | some i =>
    if s.size / 2 < i then (.ok (), s.removeShiftBack i)
    else (.ok (), s.removeShiftFront i)

/-- The loop body of `ArrayDeque.rotate` for `n >= 0`:
`self.add_first(self.delete_last())`, iterated. -/
def rotateRightN : Nat → ArrayDeque α → Except Err Unit × ArrayDeque α
  | 0, s => (.ok (), s)
  | n + 1, s =>
    match s.deleteLast with
    | (.error e, s') => (.error e, s')
    | (.ok v, s') => rotateRightN n (s'.addFirst v)

/-- The loop body of `ArrayDeque.rotate` for `n < 0`:
`self.add_last(self.delete_first())`, iterated. -/
def rotateLeftN : Nat → ArrayDeque α → Except Err Unit × ArrayDeque α
  | 0, s => (.ok (), s)
  | n + 1, s =>
    match s.deleteFirst with
    | (.error e, s') => (.error e, s')
    | (.ok v, s') => rotateLeftN n (s'.addLast v)

/-- `ArrayDeque.rotate(n)`. -/
def rotate (s : ArrayDeque α) (n : Int) : Except Err Unit × ArrayDeque α :=
  if 0 ≤ n then rotateRightN n.toNat s else rotateLeftN n.natAbs s

/-- Logical contents, front to back: abstraction used by the specification
(`deque[0..size-1]` read through the physical layout). -/
def toList (s : ArrayDeque α) : List (Option α) :=
  (List.range s.size).map fun i => s.data.getD ((s.front + i) % s.data.length) none

/-- The representation invariant stated by the specification:
`size <= capacity` and `0 <= front < capacity`. -/
def WF (s : ArrayDeque α) : Prop :=
  s.size ≤ s.data.length ∧ s.front < s.data.length

instance (s : ArrayDeque α) : Decidable s.WF := by
  unfold WF; infer_instance

end ArrayDeque

/-- State of `ArrayQueue`: fields `_data`, `_size`, `_front`. -/
structure ArrayQueue (α : Type) where
  data : List (Option α)
  size : Nat
  front : Nat
  deriving Repr

namespace ArrayQueue

/-- `ArrayQueue.DEFAULT_CAPACITY = 10`. -/
def DEFAULT_CAPACITY : Nat := 10

/-- `ArrayQueue.__init__`. -/
def init : ArrayQueue α := ⟨List.replicate DEFAULT_CAPACITY none, 0, 0⟩

/-- `ArrayQueue.__len__`. -/
def len (s : ArrayQueue α) : Nat := s.size

/-- `ArrayQueue.is_empty`. -/
def isEmpty (s : ArrayQueue α) : Bool := s.size = 0

/-- `ArrayQueue._resize(cap)`. -/
def resize (s : ArrayQueue α) (cap : Nat) : ArrayQueue α :=
  { s with
    data := (List.range cap).map fun k =>
      if k < s.size then s.data.getD ((s.front + k) % s.data.length) none else none
    front := 0 }

/-- The growth guard of `enqueue`:
`if self._size == len(self._data): self._resize(2 * len(self._data))`. -/
def grow (s : ArrayQueue α) : ArrayQueue α :=
  if s.size = s.data.length then s.resize (2 * s.data.length) else s

/-- `ArrayQueue.enqueue(e)`. -/
def enqueue (s : ArrayQueue α) (e : Option α) : ArrayQueue α :=
  let t := s.grow
  { t with
    data := t.data.set ((t.front + t.size) % t.data.length) e
    size := t.size + 1 }

/-- `ArrayQueue.dequeue()`. -/
def dequeue (s : ArrayQueue α) : Except Err (Option α) × ArrayQueue α :=
  if s.size = 0 then (.error .empty, s)
  else
    (.ok (s.data.getD s.front none),
      { s with
        data := s.data.set s.front none
        front := (s.front + 1) % s.data.length
        size := s.size - 1 })

/-- `ArrayQueue.first()`. -/
def first (s : ArrayQueue α) : Except Err (Option α) × ArrayQueue α :=
  if s.size = 0 then (.error .empty, s)
  else (.ok (s.data.getD s.front none), s)

/-- Logical contents, front to back. -/
def toList (s : ArrayQueue α) : List (Option α) :=
  (List.range s.size).map fun i => s.data.getD ((s.front + i) % s.data.length) none

/-- Representation invariant. -/
def WF (s : ArrayQueue α) : Prop :=
  s.size ≤ s.data.length ∧ s.front < s.data.length

end ArrayQueue

/-- State of `LinkedQueue`: the chain of `_Node`s reached from `_head`
(whose final node is `_tail`) is rendered as the list of its elements,
plus the `_size` counter the source keeps separately. -/
structure LinkedQueue (α : Type) where
  elems : List α
  size : Nat
  deriving Repr

namespace LinkedQueue

/-- `LinkedQueue.__init__`. -/
def init : LinkedQueue α := ⟨[], 0⟩

/-- `LinkedQueue.enqueue(e)`: a fresh node is linked after `_tail`
(or becomes `_head` when empty), i.e. appended to the chain. -/
def enqueue (s : LinkedQueue α) (e : α) : LinkedQueue α :=
  ⟨s.elems ++ [e], s.size + 1⟩

/-- `LinkedQueue.dequeue()`: `_head` advances one node.  The inner `[]`
case is unreachable when `size` agrees with the chain. -/
def dequeue (s : LinkedQueue α) : Except Err α × LinkedQueue α :=
  if s.size = 0 then (.error .empty, s)
  else
    match s.elems with
    | [] => (.error .empty, s)
    | x :: xs => (.ok x, ⟨xs, s.size - 1⟩)

end LinkedQueue

/-- State of `CircularQueue`: the ring is rendered as the list of elements
read from the head (`_tail._next`) around to `_tail`, plus `_size`. -/
structure CircularQueue (α : Type) where
  elems : List α
  size : Nat
  deriving Repr

namespace CircularQueue

/-- `CircularQueue.__init__`. -/
def init : CircularQueue α := ⟨[], 0⟩

/-- `CircularQueue.enqueue(e)`: the new node is spliced in right before
the head and becomes the new `_tail`, i.e. appended at the back. -/
def enqueue (s : CircularQueue α) (e : α) : CircularQueue α :=
  ⟨s.elems ++ [e], s.size + 1⟩

/-- `CircularQueue.dequeue()`. -/
def dequeue (s : CircularQueue α) : Except Err α × CircularQueue α :=
  if s.size = 0 then (.error .empty, s)
  else
    match s.elems with
    | [] => (.error .empty, s)
    | x :: xs => (.ok x, ⟨xs, s.size - 1⟩)

/-- `CircularQueue.rotate()`: `if self._size > 0: self._tail = self._tail._next`.
Advancing `_tail` to the old head moves the front element to the back.
The method has no raise path, hence a total function. -/
def rotate (s : CircularQueue α) : CircularQueue α :=
  if 0 < s.size then
    match s.elems with
    | [] => s
    | x :: xs => ⟨xs ++ [x], s.size⟩
  else s

end CircularQueue

/-! ### List-level helpers -/

lemma getD_map_range {β : Type} (f : Nat → β) (d : β) {i n : Nat} (h : i < n) :
    ((List.range n).map f).getD i d = f i := by
  rw [List.getD_eq_getElem?_getD]
  simp [List.getElem?_map, List.getElem?_range, h]

lemma getD_set_ne {β : Type} (l : List β) {i j : Nat} (h : i ≠ j) (a d : β) :
    (l.set i a).getD j d = l.getD j d := by
  rw [List.getD_eq_getElem?_getD, List.getD_eq_getElem?_getD, List.getElem?_set_ne h]

lemma getD_set_eq {β : Type} (l : List β) {i : Nat} (h : i < l.length) (a d : β) :
    (l.set i a).getD i d = a := by
  rw [List.getD_eq_getElem?_getD]
  simp [List.getElem?_set_self, h]

/-- Physical addresses of distinct logical offsets below the capacity are
distinct: `(f + a) % cap = (f + b) % cap` forces `a = b` when `a, b < cap`. -/
lemma add_mod_inj {cap f a b : Nat} (ha : a < cap) (hb : b < cap)
    (h : (f + a) % cap = (f + b) % cap) : a = b := by
  have h2 := Nat.ModEq.add_left_cancel' f h
  rwa [Nat.ModEq, Nat.mod_eq_of_lt ha, Nat.mod_eq_of_lt hb] at h2

/-! ### ArrayDeque: abstraction lemmas -/

namespace ArrayDeque

lemma toList_length (s : ArrayDeque α) : s.toList.length = s.size := by
  simp [toList]

lemma toList_getD (s : ArrayDeque α) {i : Nat} (h : i < s.size) :
    s.toList.getD i none = s.data.getD ((s.front + i) % s.data.length) none :=
  getD_map_range _ _ h

lemma resize_size (s : ArrayDeque α) (c : Nat) : (s.resize c).size = s.size := rfl

lemma resize_front (s : ArrayDeque α) (c : Nat) : (s.resize c).front = 0 := rfl

lemma resize_data_length (s : ArrayDeque α) (c : Nat) :
    (s.resize c).data.length = c := by
  simp [resize]

lemma resize_toList (s : ArrayDeque α) {c : Nat} (h : s.size ≤ c) :
    (s.resize c).toList = s.toList := by
  unfold toList
  rw [resize_size]
  apply List.map_congr_left
  intro i hi
  rw [List.mem_range] at hi
  have hic : i < c := lt_of_lt_of_le hi h
  rw [resize_front, resize_data_length, Nat.zero_add, Nat.mod_eq_of_lt hic]
  show ((List.range c).map _).getD i none = _
  rw [getD_map_range _ _ hic]
  simp [hi]

lemma grow_size (s : ArrayDeque α) : s.grow.size = s.size := by
  unfold grow; split <;> rfl

lemma grow_size_lt (s : ArrayDeque α) (h : s.WF) :
    s.grow.size < s.grow.data.length := by
  obtain ⟨hsz, hf⟩ := h
  have hcap : 0 < s.data.length := Nat.lt_of_le_of_lt (Nat.zero_le _) hf
  unfold grow
  split
  · rw [resize_size, resize_data_length]; omega
  · omega

lemma grow_front_lt (s : ArrayDeque α) (h : s.WF) :
    s.grow.front < s.grow.data.length := by
  obtain ⟨hsz, hf⟩ := h
  have hcap : 0 < s.data.length := Nat.lt_of_le_of_lt (Nat.zero_le _) hf
  unfold grow
  split
  · rw [resize_front, resize_data_length]; omega
  · exact hf

lemma grow_toList (s : ArrayDeque α) (h : s.WF) : s.grow.toList = s.toList := by
  unfold grow
  split
  · exact resize_toList s (by omega)
  · rfl

/-- Core step of `add_last` on a non-full buffer: writing at
`(front + size) % capacity` and bumping `size` appends to the contents. -/
lemma push_back_toList (t : ArrayDeque α) (e : Option α)
    (h1 : t.size < t.data.length) (h2 : t.front < t.data.length) :
    ({ t with
        data := t.data.set ((t.front + t.size) % t.data.length) e
        size := t.size + 1 } : ArrayDeque α).toList = t.toList ++ [e] := by
  have hcap : 0 < t.data.length := Nat.lt_of_le_of_lt (Nat.zero_le _) h1
  unfold toList
  simp only [List.length_set]
  rw [List.range_succ, List.map_append]
  congr 1
  · apply List.map_congr_left
    intro i hi
    rw [List.mem_range] at hi
    apply getD_set_ne
    intro hmod
    exact absurd (add_mod_inj h1 (Nat.lt_trans hi h1) hmod) (Ne.symm (Nat.ne_of_lt hi))
  · show [(t.data.set _ e).getD ((t.front + t.size) % t.data.length) none] = [e]
    rw [getD_set_eq]
    exact Nat.mod_lt _ hcap

lemma addLast_toList (s : ArrayDeque α) (e : Option α) (h : s.WF) :
    (s.addLast e).toList = s.toList ++ [e] := by
  unfold addLast
  rw [push_back_toList _ _ (grow_size_lt s h) (grow_front_lt s h), grow_toList s h]

lemma addLast_size (s : ArrayDeque α) (e : Option α) :
    (s.addLast e).size = s.size + 1 := by
  show s.grow.size + 1 = s.size + 1
  rw [grow_size]

lemma addLast_WF (s : ArrayDeque α) (e : Option α) (h : s.WF) :
    (s.addLast e).WF := by
  have h1 := grow_size_lt s h
  have h2 := grow_front_lt s h
  unfold addLast WF
  simp only [List.length_set]
  exact ⟨by omega, h2⟩

/-- Core step of `add_first` on a non-full buffer: stepping `front` back one
slot (mod capacity) and writing there prepends to the contents. -/
lemma push_front_toList (t : ArrayDeque α) (e : Option α)
    (h1 : t.size < t.data.length) (h2 : t.front < t.data.length) :
    ({ t with
        data := t.data.set ((t.front + t.data.length - 1) % t.data.length) e
        front := (t.front + t.data.length - 1) % t.data.length
        size := t.size + 1 } : ArrayDeque α).toList = e :: t.toList := by
  have hcap : 0 < t.data.length := Nat.lt_of_le_of_lt (Nat.zero_le _) h1
  set f := (t.front + t.data.length - 1) % t.data.length with hf
  have hflt : f < t.data.length := Nat.mod_lt _ hcap
  unfold toList
  simp only [List.length_set]
  rw [List.range_succ_eq_map, List.map_cons, List.map_map]
  congr 1
  · rw [Nat.add_zero, Nat.mod_eq_of_lt hflt]
    exact getD_set_eq _ hflt _ _
  · apply List.map_congr_left
    intro i hi
    rw [List.mem_range] at hi
    show (t.data.set f e).getD ((f + Nat.succ i) % t.data.length) none
        = t.data.getD ((t.front + i) % t.data.length) none
    have hshift : (f + Nat.succ i) % t.data.length = (t.front + i) % t.data.length := by
      rw [hf, Nat.mod_add_mod]
      have harith : t.front + t.data.length - 1 + Nat.succ i = t.front + i + t.data.length := by
        omega
      rw [harith, Nat.add_mod_right]
    rw [hshift]
    apply getD_set_ne
    intro hmod
    have hsucc : (f + Nat.succ i) % t.data.length = (f + 0) % t.data.length := by
      rw [hshift, Nat.add_zero, Nat.mod_eq_of_lt hflt, hmod]
    have hi1 : Nat.succ i < t.data.length := by omega
    exact absurd (add_mod_inj hi1 hcap hsucc) (by omega)

lemma addFirst_toList (s : ArrayDeque α) (e : Option α) (h : s.WF) :
    (s.addFirst e).toList = e :: s.toList := by
  unfold addFirst
  rw [push_front_toList _ _ (grow_size_lt s h) (grow_front_lt s h), grow_toList s h]

lemma addFirst_size (s : ArrayDeque α) (e : Option α) :
    (s.addFirst e).size = s.size + 1 := by
  show s.grow.size + 1 = s.size + 1
  rw [grow_size]

lemma addFirst_WF (s : ArrayDeque α) (e : Option α) (h : s.WF) :
    (s.addFirst e).WF := by
  have h1 := grow_size_lt s h
  have h2 := grow_front_lt s h
  have hcap : 0 < s.grow.data.length := Nat.lt_of_le_of_lt (Nat.zero_le _) h1
  unfold addFirst WF
  simp only [List.length_set]
  exact ⟨by omega, Nat.mod_lt _ hcap⟩

/-- Contents of a non-empty deque, split at the front element. -/
lemma toList_eq_cons (s : ArrayDeque α) (hne : 0 < s.size) :
    s.toList = s.data.getD (s.front % s.data.length) none ::
      (List.range (s.size - 1)).map
        (fun i => s.data.getD ((s.front + i + 1) % s.data.length) none) := by
  unfold toList
  obtain ⟨m, hm⟩ : ∃ m, s.size = m + 1 := ⟨s.size - 1, by omega⟩
  rw [hm, List.range_succ_eq_map, List.map_cons, List.map_map]
  have hm' : m + 1 - 1 = m := by omega
  rw [hm']
  rfl

/-- Contents of a non-empty deque, split at the back element. -/
lemma toList_eq_concat (s : ArrayDeque α) (hne : 0 < s.size) :
    s.toList = (List.range (s.size - 1)).map
        (fun i => s.data.getD ((s.front + i) % s.data.length) none)
      ++ [s.data.getD ((s.front + s.size - 1) % s.data.length) none] := by
  unfold toList
  obtain ⟨m, hm⟩ : ∃ m, s.size = m + 1 := ⟨s.size - 1, by omega⟩
  rw [hm, List.range_succ, List.map_append]
  have hm' : m + 1 - 1 = m := by omega
  have harith : s.front + (m + 1) - 1 = s.front + m := by omega
  rw [hm', harith]
  rfl

/-- `delete_first` on a non-empty deque, the branch actually taken. -/
lemma deleteFirst_eq (s : ArrayDeque α) (hne : 0 < s.size) :
    s.deleteFirst = (.ok (s.data.getD s.front none),
      { s with
        data := s.data.set s.front none
        front := (s.front + 1) % s.data.length
        size := s.size - 1 }) := by
  unfold deleteFirst
  rw [if_neg (by omega)]

lemma deleteFirst_toList (s : ArrayDeque α) (h : s.WF) (hne : 0 < s.size) :
    (s.deleteFirst).2.toList = s.toList.tail := by
  obtain ⟨hsz, hf⟩ := h
  rw [deleteFirst_eq s hne, toList_eq_cons s hne]
  unfold toList
  simp only [List.length_set, List.tail_cons]
  apply List.map_congr_left
  intro i hi
  rw [List.mem_range] at hi
  have hshift : ((s.front + 1) % s.data.length + i) % s.data.length
      = (s.front + i + 1) % s.data.length := by
    rw [Nat.mod_add_mod]
    congr 1
    omega
  rw [hshift]
  apply getD_set_ne
  intro hmod
  have hfr : s.front = (s.front + 0) % s.data.length := by
    rw [Nat.add_zero, Nat.mod_eq_of_lt hf]
  have hsucc : (s.front + 0) % s.data.length = (s.front + (i + 1)) % s.data.length := by
    rw [← hfr, hmod]
    congr 1
    omega
  have hi1 : i + 1 < s.data.length := by omega
  exact absurd (add_mod_inj (Nat.lt_of_le_of_lt (Nat.zero_le _) hi1) hi1 hsucc) (by omega)

lemma deleteFirst_size (s : ArrayDeque α) (hne : 0 < s.size) :
    (s.deleteFirst).2.size = s.size - 1 := by
  rw [deleteFirst_eq s hne]

lemma deleteFirst_WF (s : ArrayDeque α) (h : s.WF) : (s.deleteFirst).2.WF := by
  obtain ⟨hsz, hf⟩ := h
  have hcap : 0 < s.data.length := Nat.lt_of_le_of_lt (Nat.zero_le _) hf
  unfold deleteFirst
  split
  · exact ⟨hsz, hf⟩
  · unfold WF
    simp only [List.length_set]
    exact ⟨by omega, Nat.mod_lt _ hcap⟩

lemma deleteFirst_fst (s : ArrayDeque α) (h : s.WF) (hne : 0 < s.size) :
    (s.deleteFirst).1 = .ok (s.toList.getD 0 none) := by
  obtain ⟨hsz, hf⟩ := h
  rw [deleteFirst_eq s hne, toList_eq_cons s hne]
  simp only [List.getD_cons_zero, Nat.mod_eq_of_lt hf]

/-- `delete_last` on a non-empty deque, the branch actually taken. -/
lemma deleteLast_eq (s : ArrayDeque α) (hne : 0 < s.size) :
    s.deleteLast = (.ok (s.data.getD ((s.front + s.size - 1) % s.data.length) none),
      { s with
        data := s.data.set ((s.front + s.size - 1) % s.data.length) none
        size := s.size - 1 }) := by
  unfold deleteLast
  rw [if_neg (by omega)]

lemma deleteLast_toList (s : ArrayDeque α) (h : s.WF) (hne : 0 < s.size) :
    (s.deleteLast).2.toList = s.toList.dropLast := by
  obtain ⟨hsz, hf⟩ := h
  rw [deleteLast_eq s hne, toList_eq_concat s hne, List.dropLast_concat]
  unfold toList
  simp only [List.length_set]
  apply List.map_congr_left
  intro i hi
  rw [List.mem_range] at hi
  apply getD_set_ne
  intro hmod
  have harith : s.front + s.size - 1 = s.front + (s.size - 1) := by omega
  rw [harith] at hmod
  have hi' : i < s.data.length := by omega
  have hs' : s.size - 1 < s.data.length := by omega
  exact absurd (add_mod_inj hs' hi' hmod) (by omega)

lemma deleteLast_size (s : ArrayDeque α) (hne : 0 < s.size) :
    (s.deleteLast).2.size = s.size - 1 := by
  rw [deleteLast_eq s hne]

lemma deleteLast_WF (s : ArrayDeque α) (h : s.WF) : (s.deleteLast).2.WF := by
  obtain ⟨hsz, hf⟩ := h
  unfold deleteLast
  split
  · exact ⟨hsz, hf⟩
  · unfold WF
    simp only [List.length_set]
    exact ⟨by omega, hf⟩

lemma deleteLast_fst (s : ArrayDeque α) (h : s.WF) (hne : 0 < s.size) :
    (s.deleteLast).1 = .ok (s.toList.getLastD none) := by
  rw [deleteLast_eq s hne, toList_eq_concat s hne]
  simp

end ArrayDeque

/-! ### Rotation, at the level of logical contents -/

/-- One "move last to first" step on plain lists. -/
def rotR {β : Type} (d : β) (l : List β) : List β :=
  match l with
  | [] => []
  | x :: xs => (x :: xs).getLastD d :: (x :: xs).dropLast

/-- One "move first to last" step on plain lists. -/
def rotL {β : Type} : List β → List β
  | [] => []
  | x :: xs => xs ++ [x]

lemma rotR_ne_nil {β : Type} (d : β) {l : List β} (h : l ≠ []) :
    rotR d l = l.getLastD d :: l.dropLast := by
  cases l with
  | nil => exact absurd rfl h
  | cons x xs => rfl

lemma rotR_concat {β : Type} (d : β) (l : List β) (a : β) :
    rotR d (l ++ [a]) = a :: l := by
  rw [rotR_ne_nil d (by simp)]
  simp

lemma rotL_rotR {β : Type} (d : β) (l : List β) : rotL (rotR d l) = l := by
  induction l using List.reverseRecOn with
  | nil => rfl
  | append_singleton l a ih =>
    rw [rotR_concat]
    rfl

lemma rotR_rotL {β : Type} (d : β) (l : List β) : rotR d (rotL l) = l := by
  cases l with
  | nil => rfl
  | cons x xs => exact rotR_concat d xs x

lemma rotL_rotR_iter {β : Type} (d : β) (k : Nat) (l : List β) :
    rotL^[k] ((rotR d)^[k] l) = l := by
  induction k generalizing l with
  | zero => rfl
  | succ k ih =>
    rw [Function.iterate_succ_apply' (rotR d), Function.iterate_succ_apply rotL,
      rotL_rotR, ih]

lemma rotR_rotL_iter {β : Type} (d : β) (k : Nat) (l : List β) :
    (rotR d)^[k] (rotL^[k] l) = l := by
  induction k generalizing l with
  | zero => rfl
  | succ k ih =>
    rw [Function.iterate_succ_apply' rotL, Function.iterate_succ_apply (rotR d),
      rotR_rotL, ih]

namespace ArrayDeque

lemma toList_ne_nil (s : ArrayDeque α) (hne : 0 < s.size) : s.toList ≠ [] := by
  intro h
  have hl := toList_length s
  rw [h] at hl
  simp at hl
  omega

/-- Iterated right rotation (`add_first(delete_last())`) on a non-empty
well-formed deque succeeds and acts as `rotR` on the logical contents. -/
lemma rotateRightN_spec (k : Nat) :
    ∀ (s : ArrayDeque α), s.WF → 0 < s.size →
      (s.rotateRightN k).1 = .ok () ∧ (s.rotateRightN k).2.WF ∧
      (s.rotateRightN k).2.size = s.size ∧
      (s.rotateRightN k).2.toList = (rotR none)^[k] s.toList := by
  induction k with
  | zero => exact fun s hWF hne => ⟨rfl, hWF, rfl, rfl⟩
  | succ k ih =>
    intro s hWF hne
    have hdl := deleteLast_eq s hne
    have hfst := deleteLast_fst s hWF hne
    have htl := deleteLast_toList s hWF hne
    have hsz := deleteLast_size s hne
    have hwf1 := deleteLast_WF s hWF
    have hv : s.data.getD ((s.front + s.size - 1) % s.data.length) none
        = s.toList.getLastD none := by
      rw [hdl] at hfst
      exact Except.ok.inj hfst
    have hstep : s.rotateRightN (k + 1)
        = ((s.deleteLast).2.addFirst (s.toList.getLastD none)).rotateRightN k := by
      show (match s.deleteLast with
        | (.error e, s2) => ((.error e : Except Err Unit), s2)
        | (.ok v, s2) => (s2.addFirst v).rotateRightN k) = _
      rw [hdl, hv]
    rw [hstep]
    have hwf2 : ((s.deleteLast).2.addFirst (s.toList.getLastD none)).WF :=
      addFirst_WF _ _ hwf1
    have hsz2 : ((s.deleteLast).2.addFirst (s.toList.getLastD none)).size = s.size := by
      rw [addFirst_size, hsz]
      omega
    have htl2 : ((s.deleteLast).2.addFirst (s.toList.getLastD none)).toList
        = rotR none s.toList := by
      rw [addFirst_toList _ _ hwf1, htl, rotR_ne_nil none (toList_ne_nil s hne)]
    obtain ⟨c1, c2, c3, c4⟩ := ih _ hwf2 (by omega)
    refine ⟨c1, c2, by omega, ?_⟩
    rw [c4, htl2, ← Function.iterate_succ_apply (rotR none)]

/-- Iterated left rotation (`add_last(delete_first())`) on a non-empty
well-formed deque succeeds and acts as `rotL` on the logical contents. -/
lemma rotateLeftN_spec (k : Nat) :
    ∀ (s : ArrayDeque α), s.WF → 0 < s.size →
      (s.rotateLeftN k).1 = .ok () ∧ (s.rotateLeftN k).2.WF ∧
      (s.rotateLeftN k).2.size = s.size ∧
      (s.rotateLeftN k).2.toList = rotL^[k] s.toList := by
  induction k with
  | zero => exact fun s hWF hne => ⟨rfl, hWF, rfl, rfl⟩
  | succ k ih =>
    intro s hWF hne
    have hdf := deleteFirst_eq s hne
    have hfst := deleteFirst_fst s hWF hne
    have htl := deleteFirst_toList s hWF hne
    have hsz := deleteFirst_size s hne
    have hwf1 := deleteFirst_WF s hWF
    have hv : s.data.getD s.front none = s.toList.getD 0 none := by
      rw [hdf] at hfst
      exact Except.ok.inj hfst
    have hstep : s.rotateLeftN (k + 1)
        = ((s.deleteFirst).2.addLast (s.toList.getD 0 none)).rotateLeftN k := by
      show (match s.deleteFirst with
        | (.error e, s2) => ((.error e : Except Err Unit), s2)
        | (.ok v, s2) => (s2.addLast v).rotateLeftN k) = _
      rw [hdf, hv]
    rw [hstep]
    have hwf2 : ((s.deleteFirst).2.addLast (s.toList.getD 0 none)).WF :=
      addLast_WF _ _ hwf1
    have hsz2 : ((s.deleteFirst).2.addLast (s.toList.getD 0 none)).size = s.size := by
      rw [addLast_size, hsz]
      omega
    have htl2 : ((s.deleteFirst).2.addLast (s.toList.getD 0 none)).toList
        = rotL s.toList := by
      rw [addLast_toList _ _ hwf1, htl]
      obtain ⟨x, xs, hx⟩ : ∃ x xs, s.toList = x :: xs := by
        cases hl : s.toList with
        | nil => exact absurd hl (toList_ne_nil s hne)
        | cons x xs => exact ⟨x, xs, rfl⟩
      rw [hx]
      rfl
    obtain ⟨c1, c2, c3, c4⟩ := ih _ hwf2 (by omega)
    refine ⟨c1, c2, by omega, ?_⟩
    rw [c4, htl2, ← Function.iterate_succ_apply rotL]

lemma rotateRightN_empty (k : Nat) (s : ArrayDeque α) (h : s.size = 0) :
    (s.rotateRightN k).2 = s := by
  cases k with
  | zero => rfl
  | succ k =>
    show (match s.deleteLast with
      | (.error e, s2) => ((.error e : Except Err Unit), s2)
      | (.ok v, s2) => (s2.addFirst v).rotateRightN k).2 = s
    rw [show s.deleteLast = (.error .empty, s) from by unfold deleteLast; rw [if_pos h]]

lemma rotateLeftN_empty (k : Nat) (s : ArrayDeque α) (h : s.size = 0) :
    (s.rotateLeftN k).2 = s := by
  cases k with
  | zero => rfl
  | succ k =>
    show (match s.deleteFirst with
      | (.error e, s2) => ((.error e : Except Err Unit), s2)
      | (.ok v, s2) => (s2.addLast v).rotateLeftN k).2 = s
    rw [show s.deleteFirst = (.error .empty, s) from by unfold deleteFirst; rw [if_pos h]]

end ArrayDeque

/-! ### Logical indexing -/

namespace ArrayDeque

/-- A non-negative in-range index reads the slot
`(front + i) % capacity`, as an unconditional `Nat` computation. -/
lemma getItem_nat (s : ArrayDeque α) {i : Nat} (hi : i < s.size) :
    s.getItem i = .ok (s.data.getD ((s.front + i) % s.data.length) none) := by
  unfold getItem
  rw [if_neg (by omega), if_neg (by omega)]
  congr 1

lemma getItem_toList (s : ArrayDeque α) {i : Nat} (hi : i < s.size) :
    s.getItem i = .ok (s.toList.getD i none) := by
  rw [getItem_nat s hi, toList_getD s hi]

/-- An in-range negative index reads the slot
`(front + size - |i|) % capacity`, as an unconditional `Nat` computation. -/
lemma getItem_neg (s : ArrayDeque α) {i : Int} (h1 : i < 0) (h2 : -(s.size : Int) ≤ i) :
    s.getItem i
      = .ok (s.data.getD ((s.front + s.size - i.natAbs) % s.data.length) none) := by
  unfold getItem
  rw [if_neg (by omega), if_pos h1]
  show Except.ok (s.data.getD
      ((((s.front : Int) + (s.size : Int) + i) % (s.data.length : Int)).toNat) none) = _
  have hcast : (s.front : Int) + (s.size : Int) + i
      = ((s.front + s.size - i.natAbs : Nat) : Int) := by omega
  rw [hcast, ← Int.natCast_mod, Int.toNat_natCast]

/-- `remove` when the scan finds no match. -/
lemma remove_eq_none (s : ArrayDeque α) (v : Option α) (hf : s.findFirst v = none) :
    s.remove v = (.error .valueNotFound, s) := by
  unfold remove
  rw [hf]

/-- `remove` when the scan finds the first match at logical index `i`. -/
lemma remove_eq_some (s : ArrayDeque α) (v : Option α) {i : Nat}
    (hf : s.findFirst v = some i) :
    s.remove v = if s.size / 2 < i then ((.ok (), s.removeShiftBack i) : Except Err Unit × ArrayDeque α)
      else (.ok (), s.removeShiftFront i) := by
  unfold remove
  rw [hf]

end ArrayDeque

/-! ### ArrayQueue: abstraction lemmas -/

namespace ArrayQueue

lemma toListQ_length (s : ArrayQueue α) : s.toList.length = s.size := by
  simp [toList]

lemma resizeQ_size (s : ArrayQueue α) (c : Nat) : (s.resize c).size = s.size := rfl

lemma resizeQ_front (s : ArrayQueue α) (c : Nat) : (s.resize c).front = 0 := rfl

lemma resizeQ_data_length (s : ArrayQueue α) (c : Nat) :
    (s.resize c).data.length = c := by
  simp [resize]

lemma resizeQ_toList (s : ArrayQueue α) {c : Nat} (h : s.size ≤ c) :
    (s.resize c).toList = s.toList := by
  unfold toList
  rw [resizeQ_size]
  apply List.map_congr_left
  intro i hi
  rw [List.mem_range] at hi
  have hic : i < c := lt_of_lt_of_le hi h
  rw [resizeQ_front, resizeQ_data_length, Nat.zero_add, Nat.mod_eq_of_lt hic]
  show ((List.range c).map _).getD i none = _
  rw [getD_map_range _ _ hic]
  simp [hi]

lemma growQ_size (s : ArrayQueue α) : s.grow.size = s.size := by
  unfold grow; split <;> rfl

lemma growQ_size_lt (s : ArrayQueue α) (h : s.WF) :
    s.grow.size < s.grow.data.length := by
  obtain ⟨hsz, hf⟩ := h
  have hcap : 0 < s.data.length := Nat.lt_of_le_of_lt (Nat.zero_le _) hf
  unfold grow
  split
  · rw [resizeQ_size, resizeQ_data_length]; omega
  · omega

lemma growQ_front_lt (s : ArrayQueue α) (h : s.WF) :
    s.grow.front < s.grow.data.length := by
  obtain ⟨hsz, hf⟩ := h
  have hcap : 0 < s.data.length := Nat.lt_of_le_of_lt (Nat.zero_le _) hf
  unfold grow
  split
  · rw [resizeQ_front, resizeQ_data_length]; omega
  · exact hf

lemma growQ_toList (s : ArrayQueue α) (h : s.WF) : s.grow.toList = s.toList := by
  unfold grow
  split
  · exact resizeQ_toList s (by omega)
  · rfl

lemma enqueue_toList (s : ArrayQueue α) (e : Option α) (h : s.WF) :
    (s.enqueue e).toList = s.toList ++ [e] := by
  have h1 := growQ_size_lt s h
  have h2 := growQ_front_lt s h
  have hcap : 0 < s.grow.data.length := Nat.lt_of_le_of_lt (Nat.zero_le _) h1
  rw [← growQ_toList s h]
  show ({ s.grow with
      data := s.grow.data.set ((s.grow.front + s.grow.size) % s.grow.data.length) e
      size := s.grow.size + 1 } : ArrayQueue α).toList = _
  unfold toList
  simp only [List.length_set]
  rw [List.range_succ, List.map_append]
  congr 1
  · apply List.map_congr_left
    intro i hi
    rw [List.mem_range] at hi
    apply getD_set_ne
    intro hmod
    exact absurd (add_mod_inj h1 (Nat.lt_trans hi h1) hmod) (Ne.symm (Nat.ne_of_lt hi))
  · show [(s.grow.data.set _ e).getD ((s.grow.front + s.grow.size) % s.grow.data.length) none] = [e]
    rw [getD_set_eq]
    exact Nat.mod_lt _ hcap

lemma enqueue_size (s : ArrayQueue α) (e : Option α) :
    (s.enqueue e).size = s.size + 1 := by
  show s.grow.size + 1 = s.size + 1
  rw [growQ_size]

lemma enqueue_WF (s : ArrayQueue α) (e : Option α) (h : s.WF) :
    (s.enqueue e).WF := by
  have h1 := growQ_size_lt s h
  have h2 := growQ_front_lt s h
  unfold enqueue WF
  simp only [List.length_set]
  exact ⟨by omega, h2⟩

/-- Contents of a non-empty queue, split at the front element. -/
lemma toListQ_eq_cons (s : ArrayQueue α) (hne : 0 < s.size) :
    s.toList = s.data.getD (s.front % s.data.length) none ::
      (List.range (s.size - 1)).map
        (fun i => s.data.getD ((s.front + i + 1) % s.data.length) none) := by
  unfold toList
  obtain ⟨m, hm⟩ : ∃ m, s.size = m + 1 := ⟨s.size - 1, by omega⟩
  rw [hm, List.range_succ_eq_map, List.map_cons, List.map_map]
  have hm2 : m + 1 - 1 = m := by omega
  rw [hm2]
  rfl

lemma dequeue_eq (s : ArrayQueue α) (hne : 0 < s.size) :
    s.dequeue = (.ok (s.data.getD s.front none),
      { s with
        data := s.data.set s.front none
        front := (s.front + 1) % s.data.length
        size := s.size - 1 }) := by
  unfold dequeue
  rw [if_neg (by omega)]

lemma dequeue_toList (s : ArrayQueue α) (h : s.WF) (hne : 0 < s.size) :
    (s.dequeue).2.toList = s.toList.tail := by
  obtain ⟨hsz, hf⟩ := h
  rw [dequeue_eq s hne, toListQ_eq_cons s hne]
  unfold toList
  simp only [List.length_set, List.tail_cons]
  apply List.map_congr_left
  intro i hi
  rw [List.mem_range] at hi
  have hshift : ((s.front + 1) % s.data.length + i) % s.data.length
      = (s.front + i + 1) % s.data.length := by
    rw [Nat.mod_add_mod]
    congr 1
    omega
  rw [hshift]
  apply getD_set_ne
  intro hmod
  have hfr : s.front = (s.front + 0) % s.data.length := by
    rw [Nat.add_zero, Nat.mod_eq_of_lt hf]
  have hsucc : (s.front + 0) % s.data.length = (s.front + (i + 1)) % s.data.length := by
    rw [← hfr, hmod]
    congr 1
    omega
  have hi1 : i + 1 < s.data.length := by omega
  exact absurd (add_mod_inj (Nat.lt_of_le_of_lt (Nat.zero_le _) hi1) hi1 hsucc) (by omega)

lemma dequeue_size (s : ArrayQueue α) (hne : 0 < s.size) :
    (s.dequeue).2.size = s.size - 1 := by
  rw [dequeue_eq s hne]

lemma dequeue_WF (s : ArrayQueue α) (h : s.WF) : (s.dequeue).2.WF := by
  obtain ⟨hsz, hf⟩ := h
  have hcap : 0 < s.data.length := Nat.lt_of_le_of_lt (Nat.zero_le _) hf
  unfold dequeue
  split
  · exact ⟨hsz, hf⟩
  · unfold WF
    simp only [List.length_set]
    exact ⟨by omega, Nat.mod_lt _ hcap⟩

lemma dequeue_fst (s : ArrayQueue α) (h : s.WF) (hne : 0 < s.size) :
    (s.dequeue).1 = .ok (s.toList.getD 0 none) := by
  obtain ⟨hsz, hf⟩ := h
  rw [dequeue_eq s hne, toListQ_eq_cons s hne]
  simp only [List.getD_cons_zero, Nat.mod_eq_of_lt hf]

/-- `enqueue` each element of `es` in order. -/
def enqueueAll (s : ArrayQueue α) (es : List (Option α)) : ArrayQueue α :=
  es.foldl (fun t e => t.enqueue e) s

/-- `dequeue` `n` times, collecting the returned elements; stops early if a
dequeue raises. -/
def dequeueN : ArrayQueue α → Nat → List (Option α) × ArrayQueue α
  | s, 0 => ([], s)
  | s, n + 1 =>
    match s.dequeue with
    | (.ok v, s2) =>
      let r := dequeueN s2 n
      (v :: r.1, r.2)
    | (.error _, s2) => ([], s2)

lemma enqueueAllQ_spec (es : List (Option α)) :
    ∀ (s : ArrayQueue α), s.WF →
      (s.enqueueAll es).toList = s.toList ++ es ∧ (s.enqueueAll es).WF := by
  induction es with
  | nil => exact fun s h => ⟨by simp [enqueueAll], h⟩
  | cons e es ih =>
    intro s h
    have hstep : s.enqueueAll (e :: es) = (s.enqueue e).enqueueAll es := rfl
    obtain ⟨ht, hw⟩ := ih (s.enqueue e) (enqueue_WF s e h)
    rw [hstep, ht, enqueue_toList s e h]
    exact ⟨by simp, hw⟩

lemma dequeueNQ_spec (n : Nat) :
    ∀ (s : ArrayQueue α), s.WF → n = s.size → (s.dequeueN n).1 = s.toList := by
  induction n with
  | zero =>
    intro s h hn
    have : s.toList = [] := by
      have hl := toListQ_length s
      rw [← hn] at hl
      exact List.length_eq_zero.mp hl
    rw [this]
    rfl
  | succ n ih =>
    intro s h hn
    have hne : 0 < s.size := by omega
    have hd := dequeue_eq s hne
    have hfst := dequeue_fst s h hne
    have htl := dequeue_toList s h hne
    have hsz := dequeue_size s hne
    have hwf := dequeue_WF s h
    have hstep : s.dequeueN (n + 1)
        = ((s.toList.getD 0 none) :: ((s.dequeue).2.dequeueN n).1, ((s.dequeue).2.dequeueN n).2) := by
      show (match s.dequeue with
        | (.ok v, s2) => (v :: (s2.dequeueN n).1, (s2.dequeueN n).2)
        | (.error _, s2) => (([] : List (Option α)), s2)) = _
      rw [show s.dequeue = ((s.dequeue).1, (s.dequeue).2) from rfl, hfst]
    rw [hstep]
    have hrec := ih (s.dequeue).2 hwf (by omega)
    show _ :: ((s.dequeue).2.dequeueN n).1 = s.toList
    rw [hrec, htl]
    obtain ⟨x, xs, hx⟩ : ∃ x xs, s.toList = x :: xs := by
      cases hl : s.toList with
      | nil =>
        have hll := toListQ_length s
        rw [hl] at hll
        simp at hll
        omega
      | cons x xs => exact ⟨x, xs, rfl⟩
    rw [hx]
    rfl

end ArrayQueue

/-! ### LinkedQueue: abstraction lemmas -/

namespace LinkedQueue

/-- `enqueue` each element of `es` in order. -/
def enqueueAll (s : LinkedQueue α) (es : List α) : LinkedQueue α :=
  es.foldl (fun t e => t.enqueue e) s

/-- `dequeue` `n` times, collecting returned elements. -/
def dequeueN : LinkedQueue α → Nat → List α × LinkedQueue α
  | s, 0 => ([], s)
  | s, n + 1 =>
    match s.dequeue with
    | (.ok v, s2) =>
      let r := dequeueN s2 n
      (v :: r.1, r.2)
    | (.error _, s2) => ([], s2)

/-- The `_size` counter always matches the node chain. -/
def WF (s : LinkedQueue α) : Prop := s.size = s.elems.length

lemma enqueueAllL_spec (es : List α) :
    ∀ (s : LinkedQueue α), s.WF →
      (s.enqueueAll es).elems = s.elems ++ es ∧ (s.enqueueAll es).WF := by
  induction es with
  | nil => exact fun s h => ⟨by simp [enqueueAll], h⟩
  | cons e es ih =>
    intro s h
    obtain ⟨ht, hw⟩ := ih (s.enqueue e) (by unfold WF enqueue at *; simp; omega)
    refine ⟨?_, hw⟩
    rw [show s.enqueueAll (e :: es) = (s.enqueue e).enqueueAll es from rfl, ht]
    simp [enqueue]

lemma dequeueNL_spec (n : Nat) :
    ∀ (s : LinkedQueue α), s.WF → n = s.size → (s.dequeueN n).1 = s.elems := by
  induction n with
  | zero =>
    intro s h hn
    have hnil : s.elems = [] := by
      unfold WF at h
      exact List.length_eq_zero.mp (by omega)
    rw [hnil]
    rfl
  | succ n ih =>
    intro s h hn
    unfold WF at h
    obtain ⟨x, xs, hx⟩ : ∃ x xs, s.elems = x :: xs := by
      cases hl : s.elems with
      | nil => rw [hl] at h; simp at h; omega
      | cons x xs => exact ⟨x, xs, rfl⟩
    have hd : s.dequeue = (.ok x, ⟨xs, s.size - 1⟩) := by
      unfold dequeue
      rw [if_neg (by omega), hx]
    have hstep : s.dequeueN (n + 1)
        = (x :: ((⟨xs, s.size - 1⟩ : LinkedQueue α).dequeueN n).1,
           ((⟨xs, s.size - 1⟩ : LinkedQueue α).dequeueN n).2) := by
      show (match s.dequeue with
        | (.ok v, s2) => (v :: (s2.dequeueN n).1, (s2.dequeueN n).2)
        | (.error _, s2) => (([] : List α), s2)) = _
      rw [hd]
    rw [hstep, hx]
    have hrec := ih ⟨xs, s.size - 1⟩
      (by unfold WF; rw [hx] at h; simp at h; simp; omega)
      (by show n = s.size - 1; omega)
    rw [hrec]

end LinkedQueue

/-! ## Claims

Concrete container states used as failing inputs and witnesses.  Each is a
short operation sequence from a freshly constructed container. -/

/-- A default deque holding the single element `5`. -/
def dq1 : ArrayDeque Nat := (ArrayDeque.init none).addLast (some 5)

/-- A default deque holding `1, 2`. -/
def dq2 : ArrayDeque Nat :=
  ((ArrayDeque.init none).addLast (some 1)).addLast (some 2)

/-- A default deque holding `1, 2, 3, 4, 5` in order. -/
def dq5 : ArrayDeque Nat :=
  [1, 2, 3, 4, 5].foldl (fun t k => t.addLast (some k)) (ArrayDeque.init none)

/-- A bounded deque (`maxlen = 2`) after `add_last(1); add_last(2); add_last(3)`. -/
def dqBounded : ArrayDeque Nat :=
  [1, 2, 3].foldl (fun t k => t.addLast (some k)) (ArrayDeque.init (some 2))

/-- `add_first(7); add_last(8)` on a default deque: physical layout wraps,
with `front = 9` and the `8` stored at slot `0`. -/
def dqWrap : ArrayDeque Nat :=
  ((ArrayDeque.init none).addFirst (some 7)).addLast (some 8)

/-- A default deque after `add_last(1) .. add_last(10)`: exactly full. -/
def dq10 : ArrayDeque Nat :=
  (List.range 10).foldl (fun t k => t.addLast (some (k + 1))) (ArrayDeque.init none)

/-- `add_last(1) .. add_last(11)` on a default deque, paired with a count of
how often the insertion found `size == len(data)` and hence resized. -/
def dq11 : ArrayDeque Nat × Nat :=
  (List.range 11).foldl
    (fun t k =>
      (t.1.addLast (some (k + 1)), if t.1.size = t.1.data.length then t.2 + 1 else t.2))
    (ArrayDeque.init none, 0)

/-- C1.  The claim says `remove(value)` deletes the first occurrence of
`value`, decreasing `count(value)` and the length by exactly 1.  The code
violates it: when the match is at logical index 0 (here, the only element
of `[5]`), the chosen shift loop `range(0, 0, -1)` is empty, `_size` is
never decremented, and the call returns successfully having changed
nothing — `count(5)` and `len` both stay `1`. -/
theorem C1_remove_noop_on_front_match :
    (dq1.remove (some 5)).1 = .ok () ∧
    (dq1.remove (some 5)).2 = dq1 ∧
    dq1.count (some 5) = 1 ∧ (dq1.remove (some 5)).2.count (some 5) = 1 ∧
    dq1.len = 1 ∧ (dq1.remove (some 5)).2.len = 1 :=
  ⟨rfl, rfl, rfl, rfl, rfl, rfl⟩

/-- C2.  The claim says `len` always equals successful insertions minus
successful removals.  After five `add_last`s and one successful
`remove(4)` (match at logical index 3, the back-half branch) that should
be `4`, but the back-half shift loop of `remove` never decrements
`_size`, so `len` stays `5`. -/
theorem C2_len_not_tracking_removal :
    (dq5.remove (some 4)).1 = .ok () ∧
    dq5.len = 5 ∧
    (dq5.remove (some 4)).2.len = 5 :=
  ⟨rfl, rfl, rfl⟩

/-- C3.  The claim says that with `max_length = m` the capacity never
exceeds `m`.  But the insertion methods resize whenever
`size == len(data)` regardless of `maxlen`: with `maxlen = 2`, the third
`add_last` doubles the capacity to `4 > 2` (and `is_full` then reports
`false` again). -/
theorem C3_capacity_exceeds_maxlen :
    dqBounded.maxlen = some 2 ∧
    dqBounded.data.length = 4 ∧
    dqBounded.isFull = false :=
  ⟨rfl, rfl, rfl⟩

/-- C4.  The claim says `front` always stays a valid physical index
(`0 <= front < capacity`).  The front-half shift loop of `remove` does
`self._front += 1` without the modulus (unlike `delete_first`): removing
`8` from the wrapped layout of `dqWrap` (where `front = 9`, capacity 10)
leaves `front = 10 = capacity`. -/
theorem C4_front_escapes_capacity :
    (dqWrap.remove (some 8)).1 = .ok () ∧
    (dqWrap.remove (some 8)).2.front = 10 ∧
    (dqWrap.remove (some 8)).2.data.length = 10 :=
  ⟨rfl, rfl, rfl⟩

/-- An operation that reports an error leaves the container exactly as it
was: the post-call state of a failing call equals the input state. -/
def FailPreserving {σ β : Type} (f : σ → Except Err β × σ) : Prop :=
  ∀ s e, (f s).1 = .error e → (f s).2 = s

/-- C5.  Every failing operation—peeks and removals on an empty container,
`remove` of an absent value, an out-of-range `__setitem__`—raises before
any field mutation, so the observable state after the failed call equals
the state before it (in particular a failed `remove` has done no
shifting).  `__getitem__` never mutates by construction; the slice/
wrong-type branches raise before touching state and sit outside the typed
embedding. -/
theorem C5_failed_ops_preserve_state {α : Type} [DecidableEq α] :
    FailPreserving (ArrayDeque.deleteFirst (α := α)) ∧
    FailPreserving (ArrayDeque.deleteLast (α := α)) ∧
    FailPreserving (ArrayDeque.first (α := α)) ∧
    FailPreserving (ArrayDeque.last (α := α)) ∧
    (∀ v : Option α, FailPreserving (fun s => ArrayDeque.remove s v)) ∧
    (∀ (i : Int) (v : Option α), FailPreserving (fun s => ArrayDeque.setItem s i v)) ∧
    FailPreserving (ArrayQueue.dequeue (α := α)) ∧
    FailPreserving (ArrayQueue.first (α := α)) ∧
    FailPreserving (LinkedQueue.dequeue (α := α)) ∧
    FailPreserving (CircularQueue.dequeue (α := α)) := by
  refine ⟨?_, ?_, ?_, ?_, ?_, ?_, ?_, ?_, ?_, ?_⟩
  · intro s e h
    by_cases hs : s.size = 0
    · unfold ArrayDeque.deleteFirst
      rw [if_pos hs]
    · unfold ArrayDeque.deleteFirst at h
      rw [if_neg hs] at h
      simp at h
  · intro s e h
    by_cases hs : s.size = 0
    · unfold ArrayDeque.deleteLast
      rw [if_pos hs]
    · unfold ArrayDeque.deleteLast at h
      rw [if_neg hs] at h
      simp at h
  · intro s e h
    by_cases hs : s.size = 0
    · unfold ArrayDeque.first
      rw [if_pos hs]
    · unfold ArrayDeque.first at h
      rw [if_neg hs] at h
      simp at h
  · intro s e h
    by_cases hs : s.size = 0
    · unfold ArrayDeque.last
      rw [if_pos hs]
    · unfold ArrayDeque.last at h
      rw [if_neg hs] at h
      simp at h
  · intro v s e h
    replace h : (s.remove v).1 = Except.error e := h
    show (s.remove v).2 = s
    cases hf : s.findFirst v with
    | none => rw [ArrayDeque.remove_eq_none s v hf]
    | some i =>
      rw [ArrayDeque.remove_eq_some s v hf] at h
      split at h <;> simp at h
  · intro i v s e h
    replace h : (s.setItem i v).1 = Except.error e := h
    show (s.setItem i v).2 = s
    by_cases hr : i < -(s.size : Int) ∨ (s.size : Int) - 1 < i
    · unfold ArrayDeque.setItem
      rw [if_pos hr]
    · unfold ArrayDeque.setItem at h
      rw [if_neg hr] at h
      simp at h
  · intro s e h
    by_cases hs : s.size = 0
    · unfold ArrayQueue.dequeue
      rw [if_pos hs]
    · unfold ArrayQueue.dequeue at h
      rw [if_neg hs] at h
      simp at h
  · intro s e h
    by_cases hs : s.size = 0
    · unfold ArrayQueue.first
      rw [if_pos hs]
    · unfold ArrayQueue.first at h
      rw [if_neg hs] at h
      simp at h
  · intro s e h
    unfold LinkedQueue.dequeue at h ⊢
    by_cases hs : s.size = 0
    · rw [if_pos hs]
    · rw [if_neg hs] at h ⊢
      cases hl : s.elems with
      | nil => rfl
      | cons x xs =>
        rw [hl] at h
        simp at h
  · intro s e h
    unfold CircularQueue.dequeue at h ⊢
    by_cases hs : s.size = 0
    · rw [if_pos hs]
    · rw [if_neg hs] at h ⊢
      cases hl : s.elems with
      | nil => rfl
      | cons x xs =>
        rw [hl] at h
        simp at h

/-- Witness for C5 at concrete inputs: a `delete_first` on an empty deque
and a `remove` of an absent value both leave the container unchanged. -/
theorem C5_witness :
    ((ArrayDeque.init none : ArrayDeque Nat).deleteFirst).2 = ArrayDeque.init none ∧
    (dq2.remove (some 9)).2 = dq2 := by
  constructor
  · exact (C5_failed_ops_preserve_state (α := Nat)).1 (ArrayDeque.init none) .empty rfl
  · exact (C5_failed_ops_preserve_state (α := Nat)).2.2.2.2.1 (some 9) dq2 .valueNotFound rfl

/-- C6.  Resize transparency: `_resize` keeps the logical contents intact;
an `add_last` performed when `size == len(data)` (hence through a resize)
leaves `deque[i]` unchanged for every logical index `i` valid before and
after; and concretely, eleven `add_last`s on a default deque trigger
exactly one resize, to capacity 20, with `deque[0..10]` returning the
eleven elements in insertion order. -/
theorem C6_resize_transparency {α : Type} [DecidableEq α] :
    (∀ (s : ArrayDeque α) (c : Nat), s.size ≤ c → (s.resize c).toList = s.toList) ∧
    (∀ (s : ArrayDeque α) (e : Option α) (i : Nat),
      s.WF → s.size = s.data.length → i < s.size →
      (s.addLast e).getItem i = s.getItem i) ∧
    dq11.2 = 1 ∧
    dq11.1.data.length = 20 ∧
    (List.range 11).map (fun i => dq11.1.getItem i)
      = (List.range 11).map (fun i => .ok (some (i + 1))) := by
  refine ⟨?_, ?_, rfl, rfl, rfl⟩
  · intro s c h
    exact ArrayDeque.resize_toList s h
  · intro s e i hWF htrig hi
    have hsz := ArrayDeque.addLast_size s e
    rw [ArrayDeque.getItem_toList s hi,
      ArrayDeque.getItem_toList (s.addLast e) (by omega),
      ArrayDeque.addLast_toList s e hWF]
    congr 1
    exact List.getD_append _ _ _ _ (by rw [ArrayDeque.toList_length]; omega)

/-- Witness for C6: the full ten-element deque `dq10` resized to 20 keeps
its contents, and the resize-triggering `add_last(11)` does not change
`deque[0]`. -/
theorem C6_witness :
    (dq10.resize 20).toList = dq10.toList ∧
    (dq10.addLast (some 11)).getItem 0 = dq10.getItem 0 := by
  constructor
  · exact (C6_resize_transparency (α := Nat)).1 dq10 20 (by decide)
  · exact (C6_resize_transparency (α := Nat)).2.1 dq10 (some 11) 0
      (by decide) (by decide) (by decide)

/-- C7.  Integer indexing `deque[i]` succeeds exactly for
`-size <= i <= size - 1`, fails with the index error otherwise, and on a
non-empty deque the negative aliases hold:
`deque[-1] = deque[size-1]` and `deque[-size] = deque[0]`. -/
theorem C7_index_range_and_negative_aliases {α : Type} [DecidableEq α]
    (s : ArrayDeque α) (i : Int) :
    ((-(s.size : Int) ≤ i ∧ i ≤ (s.size : Int) - 1) → ∃ v, s.getItem i = .ok v) ∧
    (¬(-(s.size : Int) ≤ i ∧ i ≤ (s.size : Int) - 1) →
      s.getItem i = .error .indexOutOfBounds) ∧
    (0 < s.size →
      s.getItem (-1) = s.getItem ((s.size : Int) - 1) ∧
      s.getItem (-(s.size : Int)) = s.getItem 0) := by
  refine ⟨?_, ?_, ?_⟩
  · intro h
    unfold ArrayDeque.getItem
    rw [if_neg (by omega)]
    split
    · exact ⟨_, rfl⟩
    · exact ⟨_, rfl⟩
  · intro h
    unfold ArrayDeque.getItem
    rw [if_pos (by omega)]
  · intro hne
    constructor
    · rw [ArrayDeque.getItem_neg s (i := -1) (by omega) (by omega),
        show (s.size : Int) - 1 = ((s.size - 1 : Nat) : Int) from by omega,
        ArrayDeque.getItem_nat s (i := s.size - 1) (by omega)]
      have harith : s.front + s.size - (-1 : Int).natAbs = s.front + (s.size - 1) := by
        omega
      rw [harith]
    · rw [ArrayDeque.getItem_neg s (i := -(s.size : Int)) (by omega) (by omega),
        show (0 : Int) = ((0 : Nat) : Int) from rfl,
        ArrayDeque.getItem_nat s (i := 0) (by omega)]
      have harith : s.front + s.size - (-(s.size : Int)).natAbs = s.front + 0 := by
        omega
      rw [harith]

/-- Witness for C7 on the two-element deque `dq2`: index 0 succeeds,
index 5 fails with the index error, and both negative aliases hold. -/
theorem C7_witness :
    (∃ v, dq2.getItem 0 = .ok v) ∧
    dq2.getItem 5 = .error .indexOutOfBounds ∧
    (dq2.getItem (-1) = dq2.getItem ((dq2.size : Int) - 1) ∧
     dq2.getItem (-(dq2.size : Int)) = dq2.getItem 0) :=
  ⟨(C7_index_range_and_negative_aliases dq2 0).1 (by decide),
   (C7_index_range_and_negative_aliases dq2 5).2.1 (by decide),
   (C7_index_range_and_negative_aliases dq2 0).2.2 (by decide)⟩

/-- C8.  `rotate(k)` followed by `rotate(-k)` restores the logical order
and contents of any well-formed deque, for every integer `k`.  On an
empty deque a non-zero rotation raises `Empty` from its first
`delete_last`/`delete_first` before mutating anything, so the contents
are likewise preserved. -/
theorem C8_rotate_roundtrip {α : Type} [DecidableEq α]
    (s : ArrayDeque α) (k : Int) (h : s.WF) :
    ((s.rotate k).2.rotate (-k)).2.toList = s.toList := by
  by_cases hsz : s.size = 0
  · have h1 : (s.rotate k).2 = s := by
      unfold ArrayDeque.rotate
      split
      · exact ArrayDeque.rotateRightN_empty _ s hsz
      · exact ArrayDeque.rotateLeftN_empty _ s hsz
    rw [h1]
    have h2 : (s.rotate (-k)).2 = s := by
      unfold ArrayDeque.rotate
      split
      · exact ArrayDeque.rotateRightN_empty _ s hsz
      · exact ArrayDeque.rotateLeftN_empty _ s hsz
    rw [h2]
  · have hne : 0 < s.size := by omega
    by_cases hk : 0 ≤ k
    · have h1 : (s.rotate k).2 = (s.rotateRightN k.toNat).2 := by
        unfold ArrayDeque.rotate
        rw [if_pos hk]
      obtain ⟨hok, hwf, hsz1, htl⟩ := ArrayDeque.rotateRightN_spec k.toNat s h hne
      by_cases hk0 : k = 0
      · subst hk0
        rfl
      · have h2 : ((s.rotate k).2.rotate (-k)).2
            = ((s.rotate k).2.rotateLeftN (-k).natAbs).2 := by
          unfold ArrayDeque.rotate
          rw [if_neg (by omega)]
        obtain ⟨hok2, hwf2, hsz2, htl2⟩ :=
          ArrayDeque.rotateLeftN_spec (-k).natAbs (s.rotate k).2
            (by rw [h1]; exact hwf) (by rw [h1]; omega)
        rw [h2, htl2, h1, htl]
        rw [show (-k).natAbs = k.toNat from by omega]
        exact rotL_rotR_iter none k.toNat s.toList
    · have h1 : (s.rotate k).2 = (s.rotateLeftN k.natAbs).2 := by
        unfold ArrayDeque.rotate
        rw [if_neg hk]
      obtain ⟨hok, hwf, hsz1, htl⟩ := ArrayDeque.rotateLeftN_spec k.natAbs s h hne
      have h2 : ((s.rotate k).2.rotate (-k)).2
          = ((s.rotate k).2.rotateRightN (-k).toNat).2 := by
        unfold ArrayDeque.rotate
        rw [if_pos (by omega)]
      obtain ⟨hok2, hwf2, hsz2, htl2⟩ :=
        ArrayDeque.rotateRightN_spec (-k).toNat (s.rotate k).2
          (by rw [h1]; exact hwf) (by rw [h1]; omega)
      rw [h2, htl2, h1, htl]
      rw [show (-k).toNat = k.natAbs from by omega]
      exact rotR_rotL_iter none k.natAbs s.toList

/-- Witness for C8: rotating `[1,2,3,4,5]` right by 2 and back restores
the contents. -/
theorem C8_witness : ((dq5.rotate 2).2.rotate (-2)).2.toList = dq5.toList :=
  C8_rotate_roundtrip dq5 2 (by decide)

/-- C9.  FIFO round trip: enqueueing any sequence of elements into a fresh
`ArrayQueue` (through any internally triggered resizes) or a fresh
`LinkedQueue`, then dequeueing as many times, returns exactly that
sequence in order. -/
theorem C9_fifo_order {α β : Type} [DecidableEq α] [DecidableEq β]
    (es : List (Option α)) (fs : List β) :
    ((ArrayQueue.init.enqueueAll es).dequeueN es.length).1 = es ∧
    ((LinkedQueue.init.enqueueAll fs).dequeueN fs.length).1 = fs := by
  constructor
  · have hwf : (ArrayQueue.init : ArrayQueue α).WF := by
      constructor <;> simp [ArrayQueue.init, ArrayQueue.DEFAULT_CAPACITY]
    obtain ⟨ht, hw⟩ := ArrayQueue.enqueueAllQ_spec es ArrayQueue.init hwf
    rw [show (ArrayQueue.init : ArrayQueue α).toList = [] from rfl] at ht
    rw [List.nil_append] at ht
    have hlen : es.length = (ArrayQueue.init.enqueueAll es).size := by
      have hl := ArrayQueue.toListQ_length (ArrayQueue.init.enqueueAll es)
      rw [ht] at hl
      omega
    rw [ArrayQueue.dequeueNQ_spec es.length _ hw hlen, ht]
  · have hwf : (LinkedQueue.init : LinkedQueue β).WF := rfl
    obtain ⟨ht, hw⟩ := LinkedQueue.enqueueAllL_spec fs LinkedQueue.init hwf
    rw [show (LinkedQueue.init : LinkedQueue β).elems = [] from rfl] at ht
    rw [List.nil_append] at ht
    have hlen : fs.length = (LinkedQueue.init.enqueueAll fs).size := by
      have hl := hw
      unfold LinkedQueue.WF at hl
      rw [ht] at hl
      omega
    rw [LinkedQueue.dequeueNL_spec fs.length _ hw hlen, ht]

/-- C10.  `CircularQueue.rotate()` has no raise path, and on an empty
queue (`size == 0`) its guard makes it a no-op: the queue is unchanged. -/
theorem C10_rotate_empty_noop {α : Type} (s : CircularQueue α) (h : s.size = 0) :
    s.rotate = s := by
  unfold CircularQueue.rotate
  rw [if_neg (by omega)]

/-- Witness for C10 at the freshly constructed empty circular queue. -/
theorem C10_witness :
    (CircularQueue.init : CircularQueue Nat).rotate = CircularQueue.init :=
  C10_rotate_empty_noop _ rfl

end PyDSA
